import Mathlib

/-!
Verification of the excelauto repository (Python sources `insert_images.py`,
`create_person_sheets.py`, `remove_extra_sheets.py`).

The Python code is embedded shallowly:

* Python `float` values that the programs feed through the geometry pipeline
  are modelled as exact rationals (`ℚ`).  Every float expression the claims
  touch is either integer-valued, or is only combined by the operations
  `+ - * /`, `math.floor`, `round` and `int` at magnitudes far below 2^53 and
  with at most two accumulation steps, where binary floating point and exact
  rational arithmetic produce the same rounded integers.
* Python `int` is `ℤ` (arbitrary precision in Python as well).
* `None`-able arguments are `Option` values.
* Worksheet state is reduced to the data the functions read (per-column width
  and per-row height overrides); the effect of a run is the list of image
  anchors that `ws.add_image` receives.
-/

namespace ExcelAuto

/-- Truncation toward zero: the behavior of Python `int()` on a real value. -/
def ratTrunc (q : ℚ) : ℤ := if 0 ≤ q then ⌊q⌋ else -⌊-q⌋

/-- Round half to even: the behavior of the Python builtin `round` on a real
value (banker's rounding). -/
def roundHalfEven (q : ℚ) : ℤ :=
  if q - ⌊q⌋ < 1/2 then ⌊q⌋
  else if (1 : ℚ)/2 < q - ⌊q⌋ then ⌊q⌋ + 1
  else if 2 ∣ ⌊q⌋ then ⌊q⌋ else ⌊q⌋ + 1

/-- `DEFAULT_COLUMN_WIDTH = 8.38` from `insert_images.py`. -/
def DEFAULT_COLUMN_WIDTH : ℚ := 8.38

/-- `DEFAULT_ROW_HEIGHT = 15.0` from `insert_images.py`. -/
def DEFAULT_ROW_HEIGHT : ℚ := 15.0

/-- `column_width_to_pixels(width)` from `insert_images.py`:
`if not width or width <= 0: width = DEFAULT_COLUMN_WIDTH`, then
`math.floor(width * 12 + 0.5)` if `width < 1` else `math.floor(width * 7 + 5)`.
The Python function returns `float(pixels)`; the value is always an integer,
so the model returns `ℤ`. -/
def column_width_to_pixels (width : Option ℚ) : ℤ :=
  let w : ℚ :=
    match width with
    | none => DEFAULT_COLUMN_WIDTH
    | some q => if q ≤ 0 then DEFAULT_COLUMN_WIDTH else q
  if w < 1 then ⌊w * 12 + 1/2⌋ else ⌊w * 7 + 5⌋

/-- `row_height_to_pixels(height)` from `insert_images.py`:
`if not height or height <= 0: height = DEFAULT_ROW_HEIGHT`, then
`height * 4 / 3`. -/
def row_height_to_pixels (height : Option ℚ) : ℚ :=
  (match height with
   | none => DEFAULT_ROW_HEIGHT
   | some h => if h ≤ 0 then DEFAULT_ROW_HEIGHT else h) * 4 / 3

/-- The worksheet data read by the geometry code: the stored column-width and
row-height overrides (`None` when a dimension object is absent or has no
stored width/height, exactly as the `col_dim`/`row_dim` lookups produce). -/
structure Worksheet where
  colWidth : String → Option ℚ
  rowHeight : Nat → Option ℚ

/-- `merged_columns_width_in_pixels(ws, columns)` from `insert_images.py`:
sums the per-column pixel widths and applies `int()`.  Every summand is an
integer-valued float, so the truncation is the identity and the model sums
in `ℤ` directly. -/
def merged_columns_width_in_pixels (ws : Worksheet) (columns : List String) : ℤ :=
  (columns.map (fun letter => column_width_to_pixels (ws.colWidth letter))).sum

/-- `merged_rows_height_in_pixels(ws, rows)` from `insert_images.py`:
sums the per-row pixel heights (exact rationals) and applies `int()`. -/
def merged_rows_height_in_pixels (ws : Worksheet) (rows : List Nat) : ℤ :=
  ratTrunc ((rows.map (fun index => row_height_to_pixels (ws.rowHeight index))).sum)

/-- The width-allocation loop body from `insert_images_to_sheet`
(`insert_images.py` lines 141-149): repeatedly `cumulative_width += base_width;
right = round(cumulative_width); width_allocations.append(max(right -
previous_right, 1)); previous_right = right`. -/
def allocLoop (base : ℚ) : Nat → ℚ → ℤ → List ℤ
  | 0, _, _ => []
  | k + 1, cumulative, previousRight =>
    let cumulative2 := cumulative + base
    let right := roundHalfEven cumulative2
    max (right - previousRight) 1 :: allocLoop base k cumulative2 right

/-- The complete width-allocation computation of `insert_images_to_sheet`:
`base_width = total_width_px / max_images` followed by the allocation loop,
starting from `cumulative_width = 0.0` and `previous_right = 0`. -/
def widthAllocations (totalWidthPx : ℤ) (maxImages : Nat) : List ℤ :=
  allocLoop ((totalWidthPx : ℚ) / (maxImages : ℚ)) maxImages 0 0

lemma roundHalfEven_intCast (z : ℤ) : roundHalfEven (z : ℚ) = z := by
  simp [roundHalfEven]

lemma roundHalfEven_add_half (k : ℤ) :
    roundHalfEven ((k : ℚ) + 1/2) = if 2 ∣ k then k else k + 1 := by
  have hfloor : ⌊(k : ℚ) + 1/2⌋ = k := by
    rw [add_comm, Int.floor_add_int]
    norm_num
  have hfrac : (k : ℚ) + 1/2 - k = 1/2 := by ring
  simp only [roundHalfEven, hfloor, hfrac]
  norm_num

/-- C1.  For `N ∈ {1,2}` and `totalWidthPx ≥ N`, the width-allocation
algorithm (`base = totalWidthPx / N`; rounded cumulative right boundaries;
differences floored to a minimum of 1) yields `N` integer allocations that
are each `≥ 1` and sum exactly to `totalWidthPx`. -/
theorem width_allocation_partition (n : Nat) (hn : n = 1 ∨ n = 2)
    (w : ℤ) (hw : (n : ℤ) ≤ w) :
    (widthAllocations w n).length = n ∧
    (widthAllocations w n).sum = w ∧
    ∀ a ∈ widthAllocations w n, 1 ≤ a := by
  rcases hn with hn | hn
  · subst hn
    have h1 : widthAllocations w 1 = [max (w - 0) 1] := by
      simp [widthAllocations, allocLoop, roundHalfEven_intCast]
    rw [h1]
    have hmax : max (w - 0) 1 = w := by omega
    rw [hmax]
    refine ⟨rfl, by simp, ?_⟩
    intro a ha
    simp only [List.mem_singleton] at ha
    omega
  · subst hn
    obtain ⟨r1, hr1⟩ : ∃ r, roundHalfEven ((0 : ℚ) + (w : ℚ) / 2) = r := ⟨_, rfl⟩
    have hfull : ((0 : ℚ) + (w : ℚ) / 2) + (w : ℚ) / 2 = (w : ℚ) := by ring
    have h2 : widthAllocations w 2 = [max (r1 - 0) 1, max (w - r1) 1] := by
      simp only [widthAllocations, allocLoop, Nat.cast_ofNat]
      rw [hfull, roundHalfEven_intCast, hr1]
    have hb : 1 ≤ r1 ∧ r1 ≤ w - 1 := by
      rcases Int.even_or_odd w with ⟨k, hk⟩ | ⟨k, hk⟩
      · have hhalf : (0 : ℚ) + (w : ℚ) / 2 = (k : ℚ) := by
          rw [hk]; push_cast; ring
        rw [hhalf, roundHalfEven_intCast] at hr1
        omega
      · have hhalf : (0 : ℚ) + (w : ℚ) / 2 = (k : ℚ) + 1/2 := by
          rw [hk]; push_cast; ring
        rw [hhalf, roundHalfEven_add_half] at hr1
        by_cases hdvd : 2 ∣ k
        · rw [if_pos hdvd] at hr1; omega
        · rw [if_neg hdvd] at hr1; omega
    have ha1 : max (r1 - 0) 1 = r1 := by omega
    have ha2 : max (w - r1) 1 = w - r1 := by omega
    rw [h2, ha1, ha2]
    refine ⟨rfl, ?_, ?_⟩
    · simp only [List.sum_cons, List.sum_nil]
      omega
    · intro a ha
      simp only [List.mem_cons, List.not_mem_nil, or_false] at ha
      rcases ha with rfl | rfl <;> omega

/-- Witness for C1 at `N = 2`, `totalWidthPx = 5`: allocations have length 2,
sum to 5 and are each at least 1. -/
theorem width_allocation_partition_witness :
    (widthAllocations 5 2).length = 2 ∧
    (widthAllocations 5 2).sum = 5 ∧
    ∀ a ∈ widthAllocations 5 2, 1 ≤ a :=
  width_allocation_partition 2 (Or.inr rfl) 5 (by norm_num)

/-- C4.  `column_width_to_pixels` substitutes the default 8.38 character
units when its input is absent (`None`) or non-positive, returns
`⌊width * 12 + 1/2⌋` pixels when the (substituted) width is `< 1` and
`⌊width * 7 + 5⌋` pixels otherwise, and is a pure deterministic function of
its input. -/
theorem column_width_to_pixels_spec :
    (∀ w : Option ℚ, (w = none ∨ ∃ q, w = some q ∧ q ≤ 0) →
      column_width_to_pixels w = column_width_to_pixels (some DEFAULT_COLUMN_WIDTH)) ∧
    (∀ q : ℚ, 0 < q → q < 1 →
      column_width_to_pixels (some q) = ⌊q * 12 + 1/2⌋) ∧
    (∀ q : ℚ, 1 ≤ q →
      column_width_to_pixels (some q) = ⌊q * 7 + 5⌋) ∧
    (∀ w : Option ℚ, column_width_to_pixels w = column_width_to_pixels w) := by
  have hdef : ¬ (DEFAULT_COLUMN_WIDTH ≤ 0) ∧ ¬ (DEFAULT_COLUMN_WIDTH < 1) := by
    constructor <;> · rw [DEFAULT_COLUMN_WIDTH]; norm_num
  refine ⟨?_, ?_, ?_, fun _ => rfl⟩
  · rintro w (rfl | ⟨q, rfl, hq⟩)
    · simp [column_width_to_pixels, hdef.1, hdef.2]
    · simp [column_width_to_pixels, hq, hdef.1, hdef.2]
  · intro q hq0 hq1
    have : ¬ q ≤ 0 := not_le.mpr hq0
    simp [column_width_to_pixels, this, hq1]
  · intro q hq
    have h0 : ¬ q ≤ 0 := by intro h; linarith
    have h1 : ¬ q < 1 := not_lt.mpr hq
    simp [column_width_to_pixels, h0, h1]

/-- Witness for C4: the default substitution at `None` and at `-3`, and the
two formula branches at `1/2` and at `2`. -/
theorem column_width_to_pixels_spec_witness :
    column_width_to_pixels none = column_width_to_pixels (some DEFAULT_COLUMN_WIDTH) ∧
    column_width_to_pixels (some (-3)) = column_width_to_pixels (some DEFAULT_COLUMN_WIDTH) ∧
    column_width_to_pixels (some (1/2)) = ⌊(1 : ℚ)/2 * 12 + 1/2⌋ ∧
    column_width_to_pixels (some 2) = ⌊(2 : ℚ) * 7 + 5⌋ :=
  ⟨column_width_to_pixels_spec.1 none (Or.inl rfl),
   column_width_to_pixels_spec.1 (some (-3)) (Or.inr ⟨-3, rfl, by norm_num⟩),
   column_width_to_pixels_spec.2.1 (1/2) (by norm_num) (by norm_num),
   column_width_to_pixels_spec.2.2.1 2 (by norm_num)⟩

/-- The column-walk loop of `insert_images_to_sheet` (`insert_images.py`
lines 169-183): `remaining_offset` starts at the image's pixel offset,
`col_offset` at 0; for each column width, stop when
`remaining_offset < width_px`, else subtract the width and advance one
column.  Returns `(col_offset, remaining_offset)`. -/
def walkColumns : List ℤ → ℤ → Nat × ℤ
  | [], remaining => (0, remaining)
  | widthPx :: rest, remaining =>
    if remaining < widthPx then (0, remaining)
    else
      let p := walkColumns rest (remaining - widthPx)
      (p.1 + 1, p.2)

/-- Horizontal anchor resolution (`insert_images.py` lines 169-191): the
column walk followed by the boundary clamp
`if col_offset >= len(column_widths_px)`, which forces the last column and
the intra-column offset `max(column_widths_px[-1] - 1, 0)`.  On an empty
width list the clamp would evaluate `column_widths_px[-1]` and raise
`IndexError`; the model returns `none` there. -/
def resolveAnchor (columnWidthsPx : List ℤ) (offsetPx : ℤ) : Option (Nat × ℤ) :=
  let p := walkColumns columnWidthsPx offsetPx
  if columnWidthsPx.length ≤ p.1 then
    match columnWidthsPx.getLast? with
    | none => none
    | some last => some (columnWidthsPx.length - 1, max (last - 1) 0)
  else some p

/-- `pixels_to_EMU` from `openpyxl.utils.units`: 9525 EMU per pixel. -/
def pixels_to_EMU (pixels : ℤ) : ℤ := pixels * 9525

/-- The data of one `OneCellAnchor` placement passed to `ws.add_image`:
the `_from` marker (column, column EMU offset, row, row EMU offset) and the
`ext` extent (width, height) in EMU. -/
structure Anchor where
  col : Nat
  colOff : ℤ
  row : Nat
  rowOff : ℤ
  extWidth : ℤ
  extHeight : ℤ
deriving DecidableEq

/-- The per-image placement loop of `insert_images_to_sheet` (lines
151-223): one image per width allocation, anchored at the pixel offset
accumulated from the previous allocations.  The bitmap resize and re-encode
steps do not influence the emitted anchors and are not modelled; `none`
from anchor resolution (empty column list, an `IndexError` in Python)
aborts the loop. -/
def placeImages (columnWidthsPx : List ℤ) (colIdx rowIdx : Nat)
    (totalHeightPx : ℤ) : List ℤ → ℤ → List Anchor
  | [], _ => []
  | widthPx :: rest, offsetPx =>
    match resolveAnchor columnWidthsPx offsetPx with
    | none => []
    | some (colOffset, remainingOffset) =>
      { col := colIdx + colOffset
        colOff := pixels_to_EMU remainingOffset
        row := rowIdx
        rowOff := 0
        extWidth := pixels_to_EMU widthPx
        extHeight := pixels_to_EMU totalHeightPx } ::
        placeImages columnWidthsPx colIdx rowIdx totalHeightPx rest (offsetPx + widthPx)

/-- `insert_images_to_sheet(ws, image_paths, cell_address, columns, rows)`
from `insert_images.py`, returning the list of image anchors added to the
worksheet.  The cell address is supplied already parsed:
`(colIdx, rowIdx)` are the zero-based coordinates that
`coordinate_from_string` and `column_index_from_string` produce (for "B19":
`colIdx = 1`, `rowIdx = 18`).  The loop over `image_paths[:max_images]`
pairs each path with `width_allocations[idx]`; since
`len(width_allocations) = max_images = len(image_paths[:max_images])` and
the anchors depend only on the allocations, the model iterates the
allocation list directly. -/
def insert_images_to_sheet (ws : Worksheet) (imagePaths : List String)
    (colIdx rowIdx : Nat) (columns : List String) (rows : List Nat) :
    List Anchor :=
  if imagePaths = [] then []
  else
    let totalWidthPx := merged_columns_width_in_pixels ws columns
    let totalHeightPx := merged_rows_height_in_pixels ws rows
    if totalWidthPx ≤ 0 ∨ totalHeightPx ≤ 0 then []
    else
      let columnWidthsPx :=
        columns.map (fun letter => column_width_to_pixels (ws.colWidth letter))
      let maxImages := min imagePaths.length 2
      if maxImages = 0 then []
      else
        placeImages columnWidthsPx colIdx rowIdx totalHeightPx
          (widthAllocations totalWidthPx maxImages) 0

lemma walkColumns_fst_le (l : List ℤ) (remaining : ℤ) :
    (walkColumns l remaining).1 ≤ l.length := by
  induction l generalizing remaining with
  | nil => simp [walkColumns]
  | cons w rest ih =>
    rw [walkColumns]
    split
    · simp
    · simpa using Nat.add_le_add_right (ih (remaining - w)) 1

/-- C2.  For every list of per-column pixel widths and every pixel offset
`≥ 0`, horizontal anchor resolution (column walk plus last-column clamp)
yields an anchor column index within `[0, number of columns - 1]`: the
anchor stays inside the region. -/
theorem anchor_within_region (columnWidthsPx : List ℤ) (offsetPx : ℤ)
    (hne : columnWidthsPx ≠ []) (_hoff : 0 ≤ offsetPx) :
    ∃ c r, resolveAnchor columnWidthsPx offsetPx = some (c, r) ∧
      c ≤ columnWidthsPx.length - 1 := by
  have hlen : 1 ≤ columnWidthsPx.length := List.length_pos.mpr hne
  rw [resolveAnchor]
  split
  · match hlast : columnWidthsPx.getLast? with
    | none => exact absurd (List.getLast?_eq_none_iff.mp hlast) hne
    | some last =>
      exact ⟨columnWidthsPx.length - 1, max (last - 1) 0, rfl, le_refl _⟩
  · next h =>
    exact ⟨(walkColumns columnWidthsPx offsetPx).1,
      (walkColumns columnWidthsPx offsetPx).2, rfl, by omega⟩

/-- Witness for C2 at widths `[63, 63, 63, 63]`, offset `0`. -/
theorem anchor_within_region_witness :
    ∃ c r, resolveAnchor [63, 63, 63, 63] 0 = some (c, r) ∧
      c ≤ ([63, 63, 63, 63] : List ℤ).length - 1 :=
  anchor_within_region [63, 63, 63, 63] 0 (by decide) (by decide)

/-- C3 counterexample.  A stored column width of `1/25 = 0.04` character
units converts to `0` pixels, so the worksheet-computable region width list
`[0, 63, 63, 63]` is reachable; on it, anchor resolution at offset `0`
lands in the second column (index 1), not the region's first column. -/
theorem anchor_zero_offset_counterexample :
    column_width_to_pixels (some (1/25)) = 0 ∧
    resolveAnchor [column_width_to_pixels (some (1/25)), 63, 63, 63] 0 ≠
      some (0, 0) ∧
    resolveAnchor [column_width_to_pixels (some (1/25)), 63, 63, 63] 0 =
      some (1, 0) := by
  have h1 : column_width_to_pixels (some (1/25)) = 0 := by
    rw [column_width_to_pixels]
    norm_num
  rw [h1]
  refine ⟨rfl, ?_, ?_⟩ <;> decide

lemma walkColumns_sum (l : List ℤ) (hnn : ∀ x ∈ l, 0 ≤ x) :
    walkColumns l l.sum = (l.length, 0) := by
  induction l with
  | nil => simp [walkColumns]
  | cons w rest ih =>
    have hsum : 0 ≤ rest.sum :=
      List.sum_nonneg (fun x hx => hnn x (List.mem_cons_of_mem w hx))
    rw [walkColumns, List.sum_cons]
    rw [if_neg (by omega)]
    have harg : w + rest.sum - w = rest.sum := by ring
    rw [harg, ih (fun x hx => hnn x (List.mem_cons_of_mem w hx))]
    simp

/-- C3 amended.  For every region whose per-column pixel widths are
nonnegative (as computed pixel widths are): if the first column's pixel
width is positive, anchor resolution at offset 0 yields the region's first
column with intra-column offset 0; and at the boundary offset
`totalWidthPx` it clamps to the region's last column with intra-column
offset `max(lastColumnWidth - 1, 0)`. -/
theorem anchor_boundary_offsets (columnWidthsPx : List ℤ)
    (hnn : ∀ x ∈ columnWidthsPx, 0 ≤ x) :
    (∀ w0 rest, columnWidthsPx = w0 :: rest → 0 < w0 →
      resolveAnchor columnWidthsPx 0 = some (0, 0)) ∧
    (∀ last, columnWidthsPx.getLast? = some last →
      resolveAnchor columnWidthsPx columnWidthsPx.sum =
        some (columnWidthsPx.length - 1, max (last - 1) 0)) := by
  constructor
  · rintro w0 rest rfl hpos
    rw [resolveAnchor, walkColumns]
    rw [if_pos hpos]
    simp
  · intro last hlast
    rw [resolveAnchor, walkColumns_sum columnWidthsPx hnn]
    rw [if_pos (le_refl _), hlast]

/-- Witness for C3 amended at widths `[63, 63, 63, 63]`: offset 0 anchors
at the first column with offset 0, and the boundary offset 252 clamps to
the last column with intra-column offset 62. -/
theorem anchor_boundary_offsets_witness :
    resolveAnchor [63, 63, 63, 63] 0 = some (0, 0) ∧
    resolveAnchor [63, 63, 63, 63] 252 = some (3, 62) := by
  have h := anchor_boundary_offsets [63, 63, 63, 63] (by decide)
  refine ⟨h.1 63 [63, 63, 63] rfl (by decide), ?_⟩
  have h2 := h.2 63 (by decide)
  simpa using h2

/-- C5.  If the computed total width or total height of the merged region
is `≤ 0`, `insert_images_to_sheet` is a silent no-op: it places no images
and raises no error (the model is a total function returning the empty
anchor list, leaving the worksheet unchanged). -/
theorem nonpositive_region_noop (ws : Worksheet) (imagePaths : List String)
    (colIdx rowIdx : Nat) (columns : List String) (rows : List Nat)
    (h : merged_columns_width_in_pixels ws columns ≤ 0 ∨
         merged_rows_height_in_pixels ws rows ≤ 0) :
    insert_images_to_sheet ws imagePaths colIdx rowIdx columns rows = [] := by
  rw [insert_images_to_sheet]
  split
  · rfl
  · rw [if_pos h]

/-- Witness for C5: an empty column span computes total width 0, and the
insertion of one image path becomes a no-op. -/
theorem nonpositive_region_noop_witness :
    insert_images_to_sheet ⟨fun _ => none, fun _ => none⟩ ["a.jpg"] 1 18 []
      [19, 20, 21] = [] :=
  nonpositive_region_noop ⟨fun _ => none, fun _ => none⟩ ["a.jpg"] 1 18 []
    [19, 20, 21] (Or.inl (by simp [merged_columns_width_in_pixels]))

/-- `remove_sheets(workbook_path)` from `remove_extra_sheets.py`, acting on
the workbook's sheet-title list: `sheet_names = wb.sheetnames`, then
`for name in sheet_names[1:]: del wb[name]`.  `del wb[name]` removes the
sheet titled `name`; worksheet titles are unique within a workbook. -/
def remove_sheets (sheetnames : List String) : List String :=
  (sheetnames.drop 1).foldl (fun wb name => wb.erase name) sheetnames

lemma foldl_erase_cons (t : List String) :
    ∀ (acc : List String) (h : String), h ∉ t →
      t.foldl (fun wb name => wb.erase name) (h :: acc) =
        h :: t.foldl (fun wb name => wb.erase name) acc := by
  induction t with
  | nil => intro acc h _; rfl
  | cons n t ih =>
    intro acc h hh
    have hne : h ≠ n := fun e => hh (e ▸ List.mem_cons_self n t)
    rw [List.foldl_cons, List.foldl_cons,
      List.erase_cons_tail (by simp [hne])]
    exact ih (acc.erase n) h (fun hm => hh (List.mem_cons_of_mem n hm))

lemma foldl_erase_self (t : List String) (ht : t.Nodup) :
    t.foldl (fun wb name => wb.erase name) t = [] := by
  induction t with
  | nil => rfl
  | cons n t ih =>
    rw [List.foldl_cons, List.erase_cons_head]
    exact ih (List.Nodup.of_cons ht)

/-- C7.  Sheet pruning deletes every sheet except the first: for every
workbook sheet-title list, `remove_sheets` leaves exactly the first
title. -/
theorem remove_sheets_keeps_first (sheetnames : List String)
    (hnd : sheetnames.Nodup) :
    remove_sheets sheetnames = sheetnames.take 1 := by
  cases sheetnames with
  | nil => rfl
  | cons first rest =>
    have hnotmem : first ∉ rest := (List.nodup_cons.mp hnd).1
    have hrest : rest.Nodup := (List.nodup_cons.mp hnd).2
    rw [remove_sheets, List.drop_one, List.tail_cons,
      foldl_erase_cons rest rest first hnotmem, foldl_erase_self rest hrest]
    rfl

/-- Witness for C7: a workbook with sheets `[A, B, C]` is left with only
`[A]`. -/
theorem remove_sheets_keeps_first_witness :
    remove_sheets ["A", "B", "C"] = ["A", "B", "C"].take 1 :=
  remove_sheets_keeps_first ["A", "B", "C"] (by decide)

/-- Start code points of the Unicode decimal-digit category `Nd` (Unicode
14.0, the table shipped with the CPython 3.11 interpreter): its 660
characters form 66 runs of ten consecutive code points whose digit values
are 0-9 in order, listed here by the run's first code point.  `Nd` is the
character class that the regex `\d` matches on Python `str` patterns, and
every `Nd` character is also accepted by `str.isdigit()` and by
`int()`. -/
def pyDigitStarts : List Nat :=
  [48, 1632, 1776, 1984, 2406, 2534, 2662, 2790, 2918, 3046, 3174, 3302,
   3430, 3558, 3664, 3792, 3872, 4160, 4240, 6112, 6160, 6470, 6608, 6784,
   6800, 6992, 7088, 7232, 7248, 42528, 43216, 43264, 43472, 43504, 43600,
   44016, 65296, 66720, 68912, 69734, 69872, 69942, 70096, 70384, 70736,
   70864, 71248, 71360, 71472, 71904, 72016, 72784, 73040, 73120, 92768,
   92864, 93008, 120782, 120792, 120802, 120812, 120822, 123200, 123632,
   125264, 130032]

/-- Membership in the Unicode decimal-digit category `Nd`: the character
class of Python's regex `\d`. -/
def isPyDigit (c : Char) : Bool :=
  pyDigitStarts.any (fun b => b ≤ c.toNat && c.toNat ≤ b + 9)

/-- Decimal value of an `Nd` character: its offset inside its run of ten,
which is how Python `int()` reads each digit of a numeral string
(`int("１２３") = 123`); 0 for characters outside the class. -/
def pyDigitVal (c : Char) : Nat :=
  match pyDigitStarts.find? (fun b => b ≤ c.toNat && c.toNat ≤ b + 9) with
  | some b => c.toNat - b
  | none => 0

/-- Code points of the 29 characters that Python `str.strip()` removes:
the characters with `str.isspace() = True` (Unicode 14.0). -/
def pySpaceCodes : List Nat :=
  [9, 10, 11, 12, 13, 28, 29, 30, 31, 32, 133, 160, 5760, 8192, 8193, 8194,
   8195, 8196, 8197, 8198, 8199, 8200, 8201, 8202, 8232, 8233, 8239, 8287,
   12288]

/-- Whitespace as Python `str.strip()` sees it. -/
def isPySpace (c : Char) : Bool := c.toNat ∈ pySpaceCodes

/-- Python `str.strip()`: remove leading and trailing whitespace. -/
def pyStrip (text : List Char) : List Char :=
  ((text.dropWhile isPySpace).reverse.dropWhile isPySpace).reverse

/-- `extract_digits(value)` from `create_person_sheets.py`: `""` when the
value is `None`, otherwise `"".join(re.findall(r"\d", str(value).strip()))`
— every character of the stripped text in the `\d` class (Unicode decimal
digits), concatenated in original order (`re.findall` scans left to
right). -/
def extract_digits (value : Option String) : String :=
  match value with
  | none => ""
  | some text => ⟨(pyStrip text.data).filter isPyDigit⟩

lemma isPySpace_not_isPyDigit (c : Char) (h : isPySpace c = true) :
    isPyDigit c = false := by
  have hmem : c.toNat ∈ pySpaceCodes := by simpa [isPySpace] using h
  simp only [pySpaceCodes, List.mem_cons, List.not_mem_nil, or_false] at hmem
  rcases hmem with h|h|h|h|h|h|h|h|h|h|h|h|h|h|h|h|h|h|h|h|h|h|h|h|h|h|h|h|h <;>
    · simp only [isPyDigit, pyDigitStarts, h]
      decide

lemma filter_digit_dropWhile_ws (l : List Char) :
    (l.dropWhile isPySpace).filter isPyDigit = l.filter isPyDigit := by
  conv_rhs => rw [← List.takeWhile_append_dropWhile isPySpace l]
  rw [List.filter_append]
  have hnil : (l.takeWhile isPySpace).filter isPyDigit = [] := by
    rw [List.filter_eq_nil_iff]
    intro a ha
    have hws : isPySpace a = true := List.mem_takeWhile_imp ha
    simp [isPySpace_not_isPyDigit a hws]
  rw [hnil, List.nil_append]

lemma filter_digit_pyStrip (l : List Char) :
    (pyStrip l).filter isPyDigit = l.filter isPyDigit := by
  rw [pyStrip, List.filter_reverse, filter_digit_dropWhile_ws,
    List.filter_reverse, List.reverse_reverse, filter_digit_dropWhile_ws]

/-- C8.  Identifier digit extraction strips every non-digit character,
returning the digit characters (Unicode decimal digits, the `\d` class) of
the input in their original order; the input `"士 123-456"` yields
`"123456"`, fullwidth digits are kept verbatim (`"１２３"` yields
`"１２３"`), and `None` yields `""`. -/
theorem extract_digits_spec :
    extract_digits none = "" ∧
    extract_digits (some "士 123-456") = "123456" ∧
    extract_digits (some "１２３") = "１２３" ∧
    ∀ s : String, (extract_digits (some s)).data = s.data.filter isPyDigit := by
  refine ⟨rfl, by decide, by decide, ?_⟩
  intro s
  show (pyStrip s.data).filter isPyDigit = s.data.filter isPyDigit
  exact filter_digit_pyStrip s.data

/-- The stem parse of the filename pattern
`^(?P<name>.+?)(?P<index>\d+)?$` in `load_images_by_person`
(`insert_images.py` line 74): the lazy `.+?` name group keeps as few
characters as possible but at least one, so the `index` group captures the
longest trailing run of digit characters that still leaves the name
nonempty, and is absent when that run is empty.  Digit characters are the
`\d` class (Unicode decimal digits).  This returns the captured `index`
group. -/
def stem_index (stem : List Char) : Option (List Char) :=
  let run := min (stem.reverse.takeWhile isPyDigit).length (stem.length - 1)
  if run = 0 then none else some (stem.drop (stem.length - run))

/-- The ordering key of `load_images_by_person` (line 88):
`int(index_str) if index_str and index_str.isdigit() else 0`.  The index
group, when present, is a nonempty string of Unicode decimal digits, so
`isdigit()` holds and the key is the base-10 value that `int()` computes
from the digits' decimal values; otherwise the key is `0`. -/
def stem_order (stem : List Char) : Nat :=
  match stem_index stem with
  | none => 0
  | some digits => digits.foldl (fun acc c => 10 * acc + pyDigitVal c) 0

/-- The per-person sort `image_map[name].sort(key=lambda item: item[0])`
(`insert_images.py` line 92).  Python's sort is stable; the model is the
stable insertion sort under the key order, which computes the same list as
any other stable sort by the same key. -/
def sortPersonImages (entries : List (Nat × String)) : List (Nat × String) :=
  entries.insertionSort (fun x y => x.1 ≤ y.1)

/-- C9.  An image stem with no trailing digit suffix (its last character is
outside the Unicode `\d` class) gets ordering key 0; the per-person entry
list is sorted by the numeric key, so every key-0 entry (in particular
every suffix-less image) is placed before every entry whose suffix is a
positive number; and suffixes compare numerically, not lexicographically:
suffix 10 orders after suffix 2 (and the fullwidth suffix `１` has key
1). -/
theorem image_numeric_suffix_order :
    (∀ (stem : List Char) (c : Char), stem.getLast? = some c →
      isPyDigit c = false → stem_order stem = 0) ∧
    (∀ l : List (Nat × String),
      List.Sorted (fun x y => x.1 ≤ y.1) (sortPersonImages l)) ∧
    (∀ (l : List (Nat × String)) (i j : Fin (sortPersonImages l).length),
      ((sortPersonImages l).get i).1 = 0 →
      0 < ((sortPersonImages l).get j).1 → i < j) ∧
    (stem_order ['张', '三', '2'] = 2 ∧
      stem_order ['张', '三', '1', '0'] = 10 ∧
      stem_order ['张', '三', '１'] = 1 ∧
      sortPersonImages [(10, "张三10"), (2, "张三2")] =
        [(2, "张三2"), (10, "张三10")]) := by
  have hsorted : ∀ l : List (Nat × String),
      List.Sorted (fun x y => x.1 ≤ y.1) (sortPersonImages l) := by
    intro l
    haveI : IsTotal (Nat × String) (fun x y => x.1 ≤ y.1) :=
      ⟨fun a b => le_total a.1 b.1⟩
    haveI : IsTrans (Nat × String) (fun x y => x.1 ≤ y.1) :=
      ⟨fun _ _ _ hab hbc => le_trans hab hbc⟩
    exact List.sorted_insertionSort _ l
  refine ⟨?_, hsorted, ?_, by decide, by decide, by decide, by decide⟩
  · intro stem c hlast hdig
    have hrev : stem.reverse.head? = some c := by
      rw [List.head?_reverse, hlast]
    cases hr : stem.reverse with
    | nil => rw [hr] at hrev; cases hrev
    | cons c0 t =>
      rw [hr] at hrev
      have hc0 : c0 = c := by
        simpa using hrev
      subst hc0
      have htw : (c0 :: t).takeWhile isPyDigit = [] := by
        rw [List.takeWhile_cons_of_neg]
        simp [hdig]
      rw [stem_order, stem_index, hr, htw]
      simp
  · intro l i j hi hj
    have hp := List.pairwise_iff_get.mp (hsorted l)
    rcases lt_trichotomy i j with h | h | h
    · exact h
    · exact absurd (h ▸ hi) (by omega)
    · have := hp j i h
      omega

/-- Witness for C9: the suffix-less stem `['张', '三']` gets key 0, and in
the sorted two-entry list with keys 10 and 0 the key-0 entry stands at
index 0, before the positive-key entry at index 1. -/
theorem image_numeric_suffix_order_witness :
    stem_order ['张', '三'] = 0 ∧
    (⟨0, by decide⟩ : Fin (sortPersonImages [(10, "b"), (0, "a")]).length) <
      ⟨1, by decide⟩ :=
  ⟨image_numeric_suffix_order.1 ['张', '三'] '三' (by decide) (by decide),
   image_numeric_suffix_order.2.2.1 [(10, "b"), (0, "a")]
     ⟨0, by decide⟩ ⟨1, by decide⟩ (by decide) (by decide)⟩

/-- `TARGET_CELL = "B19"` of `insert_images.py`, parsed as in
`insert_images_to_sheet`: zero-based column index 1 and row index 18. -/
def TARGET_COL_IDX : Nat := 1

/-- Zero-based row of `TARGET_CELL = "B19"`. -/
def TARGET_ROW_IDX : Nat := 18

/-- `TARGET_COLUMNS = ("B", "C", "D", "E")` from `insert_images.py`. -/
def TARGET_COLUMNS : List String := ["B", "C", "D", "E"]

/-- `TARGET_ROWS = (19, 20, 21)` from `insert_images.py`. -/
def TARGET_ROWS : List Nat := [19, 20, 21]

/-- The body of the `process_workbook` loop (`insert_images.py` lines
231-238) for one `(name, ordered_paths)` item of `image_map`: skip when no
sheet carries the name, skip when fewer than two images, otherwise insert
the first two paths into the same-named sheet. -/
def processEntry (wb : List (String × Worksheet))
    (entry : String × List (Nat × String)) : Option (String × List Anchor) :=
  if entry.1 ∉ wb.map Prod.fst then none
  else if entry.2.length < 2 then none
  else
    match wb.lookup entry.1 with
    | none => none
    | some ws =>
      some (entry.1, insert_images_to_sheet ws
        ((entry.2.take 2).map Prod.snd) TARGET_COL_IDX TARGET_ROW_IDX
        TARGET_COLUMNS TARGET_ROWS)

/-- `process_workbook(workbook_path, images_dir)` from `insert_images.py`,
reduced to its insertion effect.  The workbook is its association list of
sheet (title, dimension data) — titles are unique in a workbook; the image
map lists, per person name, the sorted `(order, path)` pairs produced by
`load_images_by_person`.  The result collects, per processed sheet title,
the anchors added to that sheet; skipped names contribute nothing, and no
sheet is created or removed. -/
def process_workbook (wb : List (String × Worksheet))
    (imageMap : List (String × List (Nat × String))) :
    List (String × List Anchor) :=
  imageMap.filterMap (processEntry wb)

lemma processEntry_none_of_short (wb : List (String × Worksheet))
    (name : String) (paths : List (Nat × String)) (hlt : paths.length < 2) :
    processEntry wb (name, paths) = none := by
  rw [processEntry]
  by_cases hmem : name ∈ wb.map Prod.fst
  · rw [if_neg (not_not_intro hmem), if_pos hlt]
  · rw [if_pos hmem]

lemma processEntry_take_two (wb : List (String × Worksheet))
    (name : String) (paths : List (Nat × String)) (hge : 2 ≤ paths.length) :
    processEntry wb (name, paths) = processEntry wb (name, paths.take 2) := by
  rw [processEntry, processEntry]
  have hlen2 : (paths.take 2).length = 2 := by
    rw [List.length_take]
    omega
  have htt : (paths.take 2).take 2 = paths.take 2 := by
    rw [List.take_take]
    norm_num
  by_cases hmem : name ∈ wb.map Prod.fst
  · rw [if_neg (not_not_intro hmem), if_neg (not_not_intro hmem),
      if_neg (by show ¬ paths.length < 2; omega),
      if_neg (by show ¬ (paths.take 2).length < 2; omega)]
    cases hlook : wb.lookup name with
    | none => rfl
    | some ws => simp [htt]
  · rw [if_pos hmem, if_pos hmem]

lemma processEntry_mem (wb : List (String × Worksheet))
    (a : String × List (Nat × String)) (e : String × List Anchor)
    (h : processEntry wb a = some e) : e.1 ∈ wb.map Prod.fst := by
  rw [processEntry] at h
  by_cases hmem : a.1 ∈ wb.map Prod.fst
  · rw [if_neg (not_not_intro hmem)] at h
    by_cases hlen : a.2.length < 2
    · rw [if_pos hlen] at h
      cases h
    · rw [if_neg hlen] at h
      cases hlook : wb.lookup a.1 with
      | none => rw [hlook] at h; cases h
      | some ws =>
        rw [hlook] at h
        cases h
        exact hmem
  · rw [if_pos hmem] at h
    cases h

/-- C6.  A person with fewer than 2 matching images contributes nothing to
workbook processing (the sheet receives no insertions and is untouched);
and a person with 3 or more matching images is processed exactly as with
only the first two of the ordered images — the third and further images
are ignored. -/
theorem process_workbook_two_image_policy (wb : List (String × Worksheet))
    (m₁ m₂ : List (String × List (Nat × String))) (name : String)
    (paths : List (Nat × String)) :
    (paths.length < 2 →
      process_workbook wb (m₁ ++ (name, paths) :: m₂) =
        process_workbook wb (m₁ ++ m₂)) ∧
    (3 ≤ paths.length →
      process_workbook wb (m₁ ++ (name, paths) :: m₂) =
        process_workbook wb (m₁ ++ (name, paths.take 2) :: m₂)) := by
  constructor
  · intro hlt
    have h := processEntry_none_of_short wb name paths hlt
    simp only [process_workbook, List.filterMap_append, List.filterMap_cons, h]
  · intro hge
    have h := processEntry_take_two wb name paths (by omega)
    simp only [process_workbook, List.filterMap_append, List.filterMap_cons, h]

/-- Witness for C6 on a workbook with the single sheet 王五: one image is
skipped, and three images process exactly as the first two of them. -/
theorem process_workbook_two_image_policy_witness :
    process_workbook [("王五", ⟨fun _ => none, fun _ => none⟩)]
        ([] ++ ("王五", [(0, "a")]) :: []) =
      process_workbook [("王五", ⟨fun _ => none, fun _ => none⟩)] ([] ++ []) ∧
    process_workbook [("王五", ⟨fun _ => none, fun _ => none⟩)]
        ([] ++ ("王五", [(0, "a"), (1, "b"), (2, "c")]) :: []) =
      process_workbook [("王五", ⟨fun _ => none, fun _ => none⟩)]
        ([] ++ ("王五", [(0, "a"), (1, "b"), (2, "c")].take 2) :: []) :=
  ⟨(process_workbook_two_image_policy
      [("王五", ⟨fun _ => none, fun _ => none⟩)] [] [] "王五"
      [(0, "a")]).1 (by decide),
   (process_workbook_two_image_policy
      [("王五", ⟨fun _ => none, fun _ => none⟩)] [] [] "王五"
      [(0, "a"), (1, "b"), (2, "c")]).2 (by decide)⟩

/-- C10.  A person name from the images directory with no same-named sheet
in the workbook is silently skipped, whatever its image count: the run is
identical to one without that person, and every insertion of a run targets
an existing sheet (none is created), with no error raised (the model is a
total function). -/
theorem process_workbook_missing_sheet_skipped
    (wb : List (String × Worksheet))
    (m₁ m₂ : List (String × List (Nat × String))) (name : String)
    (paths : List (Nat × String)) (hmem : name ∉ wb.map Prod.fst) :
    process_workbook wb (m₁ ++ (name, paths) :: m₂) =
      process_workbook wb (m₁ ++ m₂) ∧
    ∀ e ∈ process_workbook wb (m₁ ++ (name, paths) :: m₂),
      e.1 ∈ wb.map Prod.fst := by
  constructor
  · have h : processEntry wb (name, paths) = none := by
      rw [processEntry, if_pos hmem]
    simp only [process_workbook, List.filterMap_append, List.filterMap_cons, h]
  · intro e he
    rw [process_workbook] at he
    obtain ⟨a, _, hfa⟩ := List.mem_filterMap.mp he
    exact processEntry_mem wb a e hfa

/-- Witness for C10: the person 赵六 has no sheet in the single-sheet
workbook 王五 and is skipped with both of that person's images. -/
theorem process_workbook_missing_sheet_skipped_witness :
    process_workbook [("王五", ⟨fun _ => none, fun _ => none⟩)]
        ([] ++ ("赵六", [(0, "a"), (1, "b")]) :: []) =
      process_workbook [("王五", ⟨fun _ => none, fun _ => none⟩)] ([] ++ []) :=
  (process_workbook_missing_sheet_skipped
      [("王五", ⟨fun _ => none, fun _ => none⟩)] [] [] "赵六"
      [(0, "a"), (1, "b")] (by decide)).1

end ExcelAuto
